import Mathlib

/-!
# Verification of a MapReduce WordCount pipeline

Shallow embedding of the two Python scripts of this repository:

* `src/python/mapper.py`  — the Tokenizer/Emitter: reads text lines, strips and
  lowercases each line, extracts the maximal runs of ASCII alphanumeric
  characters (the regex `[a-zA-Z0-9]+`), and emits one record `word\t1` per
  token;
* `src/python/reducer.py` — the Sorted-Group Aggregator: reads records
  `word\tcount`, skips blank and malformed lines, and folds contiguous runs of
  equal keys, emitting one `(key, total)` pair per run plus a final flush.

Lines are modelled as `List Char`, counts as `Int` (Python integers are
arbitrary precision, and `int(...)` accepts signed values).
-/

namespace WordCount

/-! ## Character-level toolkit for the embedding -/

/-- The set of ASCII whitespace characters removed by Python's `str.strip()`
(space, tab, newline, carriage return, vertical tab, form feed). -/
def isPySpace (c : Char) : Bool :=
  c = ' ' || c = '\t' || c = '\n' || c = '\r' || c = '\x0b' || c = '\x0c'

/-- `str.strip()`: remove leading and trailing whitespace. -/
def pyStrip (l : List Char) : List Char :=
  ((l.dropWhile isPySpace).reverse.dropWhile isPySpace).reverse

/-- `str.lower()` restricted to ASCII: map `A`–`Z` to `a`–`z`, leave
every other character unchanged. -/
def pyLower (c : Char) : Char :=
  if 'A' ≤ c ∧ c ≤ 'Z' then Char.ofNat (c.toNat + 32) else c

/-- The character class of the mapper's regex `[a-zA-Z0-9]`. -/
def isAlnum (c : Char) : Bool :=
  ('a' ≤ c && c ≤ 'z') || ('A' ≤ c && c ≤ 'Z') || ('0' ≤ c && c ≤ '9')

theorem char_le_iff_toNat (a b : Char) : a ≤ b ↔ a.toNat ≤ b.toNat := by
  rw [Char.le_def, UInt32.le_def, BitVec.le_def]; rfl

theorem char_eq_of_toNat (a b : Char) (h : a.toNat = b.toNat) : a = b := by
  apply Char.eq_of_val_eq; exact UInt32.toNat.inj h

theorem char_toNat_ofNat_valid (n : Nat) (h : n < 55296) : (Char.ofNat n).toNat = n := by
  rw [Char.ofNat, dif_pos (Or.inl h)]; rfl

theorem length_dropWhile_le_aux (p : Char → Bool) :
    ∀ l : List Char, (l.dropWhile p).length ≤ l.length := by
  intro l
  induction l with
  | nil => simp [List.dropWhile]
  | cons c cs ih =>
    simp only [List.dropWhile]
    by_cases h : p c
    · simp [h]; omega
    · simp [h]

/-! ## The Tokenizer/Emitter (`mapper.py`)

`re.findall(r'[a-zA-Z0-9]+', line)` returns, left to right, every maximal run
of characters matched by the class `[a-zA-Z0-9]`; all other characters act as
separators.  The scan is embedded directly: at an alphanumeric character take
the longest alphanumeric run starting there, otherwise skip the character. -/

/-- The regex engine's left-to-right scan: `curr` is the (reversed) run being
matched; a non-matching character closes the current run, end of input closes
the last run. -/
def findallAux (curr : List Char) : List Char → List (List Char)
  | [] => if curr = [] then [] else [curr.reverse]
  | c :: cs =>
    if isAlnum c then findallAux (c :: curr) cs
    else if curr = [] then findallAux [] cs
    else curr.reverse :: findallAux [] cs

/-- Embedding of `re.findall(r'[a-zA-Z0-9]+', l)`. -/
def reFindallAlnum (l : List Char) : List (List Char) := findallAux [] l

/-- The tokens the mapper emits for one raw input line: strip and lowercase
the line, skip it if empty, extract the alphanumeric runs, and keep those
passing the (vacuous) `len(word) > 0` guard. -/
def mapperTokens (line : List Char) : List (List Char) :=
  let l := (pyStrip line).map pyLower
  if l = [] then []
  else (reFindallAlnum l).filter (fun w => w.length > 0)

/-- The `(token, 1)` pairs the mapper's output lines denote, one per emitted
token, in emission order. -/
def mapperPairs (line : List Char) : List (List Char × Int) :=
  (mapperTokens line).map (fun w => (w, 1))

/-- The mapper's actual stdout lines: `print(f"{word}\t1")` for each token. -/
def mapperOut (lines : List (List Char)) : List (List Char) :=
  (lines.map (fun line => (mapperTokens line).map (fun w => w ++ ['\t', '1']))).flatten

/-- All `(token, 1)` pairs emitted for a whole input text. -/
def mapperPairsText (lines : List (List Char)) : List (List Char × Int) :=
  (lines.map mapperPairs).flatten

/-! ## Parsing a record line (`reducer.py`, lines 26–40)

The reducer strips each line, skips blank lines, splits on `'\t'` (requiring
exactly the two fields of `word, count = line.split('\t')`), and parses the
count with Python's `int()`. Any `ValueError` makes it skip the line. -/

/-- `l.split('\t')`: split at every tab, keeping empty fields. -/
def splitTab : List Char → List (List Char)
  | [] => [[]]
  | c :: cs =>
    if c = '\t' then [] :: splitTab cs
    else
      match splitTab cs with
      | [] => [[c]]
      | f :: rest => (c :: f) :: rest

/-- Digit sequence accepted by `int()` after the first digit: decimal digits
with single underscores allowed between digits. Accumulates the value. -/
def pyIntDigits (acc : Nat) : List Char → Option Nat
  | [] => some acc
  | c :: cs =>
    if c.isDigit then pyIntDigits (acc * 10 + (c.toNat - 48)) cs
    else if c = '_' then
      match cs with
      | [] => none
      | d :: rest =>
        if d.isDigit then pyIntDigits (acc * 10 + (d.toNat - 48)) rest else none
    else none

/-- Nonempty digit sequence: the first character must be a digit. -/
def pyIntBody (l : List Char) : Option Nat :=
  match l with
  | [] => none
  | c :: cs => if c.isDigit then pyIntDigits (c.toNat - 48) cs else none

/-- Embedding of Python's `int(s)` on ASCII strings: strip whitespace, accept
an optional sign, then a nonempty digit sequence; `none` is a `ValueError`. -/
def pyInt (s : List Char) : Option Int :=
  match pyStrip s with
  | '+' :: rest => (pyIntBody rest).map (fun n => (n : Int))
  | '-' :: rest => (pyIntBody rest).map (fun n => -(n : Int))
  | t => (pyIntBody t).map (fun n => (n : Int))

/-- One iteration of the reducer's input loop up to (and including) parsing:
strip the line, skip it if blank, require exactly two tab-separated fields,
parse the count; `none` means the line is skipped. -/
def parseRecord (line : List Char) : Option (List Char × Int) :=
  let l := pyStrip line
  if l = [] then none
  else
    match splitTab l with
    | [w, cf] => (pyInt cf).map (fun n => (w, n))
    | _ => none

/-! ## The Sorted-Group Aggregator (`reducer.py`, lines 23–56) -/

/-- The reducer's mutable state: `current_word` (`None` initially) and
`current_count` (`0` initially). -/
structure RState where
  key : Option (List Char)
  total : Int
deriving DecidableEq, Repr

/-- The state at the top of the loop: `current_word = None`,
`current_count = 0`. -/
def initState : RState := ⟨none, 0⟩

/-- The loop body on a well-formed record `(k, c)`: same key — accumulate;
different key (or no current key) — emit the previous group if any and restart
the count at `(k, c)`. Returns the new state and the emitted pairs. -/
def stepRecord (s : RState) (r : List Char × Int) : RState × List (List Char × Int) :=
  if s.key = some r.1 then (⟨s.key, s.total + r.2⟩, [])
  else
    match s.key with
    | some w => (⟨some r.1, r.2⟩, [(w, s.total)])
    | none => (⟨some r.1, r.2⟩, [])

/-- The post-loop flush: emit the last group if `current_word is not None`. -/
def flush (s : RState) : List (List Char × Int) :=
  match s.key with
  | some w => [(w, s.total)]
  | none => []

/-- Run the reducer loop from state `s` over a stream of well-formed records,
flushing at end-of-stream. -/
def reduceFrom (s : RState) : List (List Char × Int) → List (List Char × Int)
  | [] => flush s
  | r :: rest => (stepRecord s r).2 ++ reduceFrom (stepRecord s r).1 rest

/-- The reducer applied to a stream of well-formed records. -/
def reduceRecords (recs : List (List Char × Int)) : List (List Char × Int) :=
  reduceFrom initState recs

/-- Run the reducer loop from state `s` over raw input lines: lines whose
parse fails are skipped without touching the state. -/
def reduceLinesFrom (s : RState) : List (List Char) → List (List Char × Int)
  | [] => flush s
  | line :: rest =>
    match parseRecord line with
    | none => reduceLinesFrom s rest
    | some r => (stepRecord s r).2 ++ reduceLinesFrom (stepRecord s r).1 rest

/-- The whole reducer: raw stdin lines in, `(word, total)` pairs out. -/
def reducerLines (lines : List (List Char)) : List (List Char × Int) :=
  reduceLinesFrom initState lines

/-- The state after the loop has consumed a stream of well-formed records
(before the final flush). -/
def stateAfter (s : RState) : List (List Char × Int) → RState
  | [] => s
  | r :: rest => stateAfter (stepRecord s r).1 rest

/-- The state after the loop has consumed raw input lines. -/
def stateAfterLines (s : RState) : List (List Char) → RState
  | [] => s
  | line :: rest =>
    match parseRecord line with
    | none => stateAfterLines s rest
    | some r => stateAfterLines (stepRecord s r).1 rest

/-- The pairs emitted during the loop itself (excluding the final flush). -/
def loopEmit (s : RState) : List (List Char × Int) → List (List Char × Int)
  | [] => []
  | r :: rest => (stepRecord s r).2 ++ loopEmit (stepRecord s r).1 rest

/-! ## Spec-side definitions

These render the spec's own words, to be compared with the source embeddings
above. -/

/-- Modelled from the spec: "extract the maximal runs matching the character
class *ASCII letters or digits* as tokens, discarding all other characters as
separators" — at an alphanumeric character the token is the longest
alphanumeric run starting there; every other character is discarded. -/
def maxRuns : List Char → List (List Char)
  | [] => []
  | c :: cs =>
    if isAlnum c then (c :: cs.takeWhile isAlnum) :: maxRuns (cs.dropWhile isAlnum)
    else maxRuns cs
termination_by l => l.length
decreasing_by
  · simp only [List.length_cons]
    exact Nat.lt_succ_of_le (length_dropWhile_le_aux isAlnum cs)
  · simp

/-- The mapper's token extraction with the `len(word) > 0` guard removed. -/
def mapperTokensNoGuard (line : List Char) : List (List Char) :=
  let l := (pyStrip line).map pyLower
  if l = [] then [] else reFindallAlnum l

/-- Prepend a record to a list of contiguous runs: it joins the first run when
the keys agree and opens a new run otherwise. -/
def consRun (r : List Char × Int) :
    List (List (List Char × Int)) → List (List (List Char × Int))
  | [] => [[r]]
  | [] :: chunks => [r] :: [] :: chunks
  | (r2 :: tl) :: chunks =>
    if r.1 = r2.1 then (r :: r2 :: tl) :: chunks else [r] :: (r2 :: tl) :: chunks

/-- Modelled from the spec: the maximal contiguous runs of equal keys in a
record stream, in input order. -/
def splitRuns : List (List Char × Int) → List (List (List Char × Int))
  | [] => []
  | r :: rest => consRun r (splitRuns rest)

/-- Modelled from the spec: a run's emitted pair — the run's key together with
the sum of the counts of its records. -/
def runPair : List (List Char × Int) → List Char × Int
  | [] => ([], 0)
  | (k, c) :: tl => (k, c + (tl.map Prod.snd).sum)

/-- Modelled from the spec: "exactly one emitted pair per maximal contiguous
run of a given key in the input, in the order the runs appeared in input",
each pair carrying the sum of the run's counts. -/
def aggSpec (recs : List (List Char × Int)) : List (List Char × Int) :=
  (splitRuns recs).map runPair

/-- The running-total contribution of a reducer state. -/
def stateSum (s : RState) : Int :=
  match s.key with
  | some _ => s.total
  | none => 0

/-! ## Mapper lemmas -/

theorem findallAux_run :
    ∀ (cs curr : List Char), curr ≠ [] →
      findallAux curr cs =
        (curr.reverse ++ cs.takeWhile isAlnum) :: findallAux [] (cs.dropWhile isAlnum) := by
  intro cs
  induction cs with
  | nil =>
    intro curr h
    simp [findallAux, h, List.takeWhile, List.dropWhile]
  | cons d ds ih =>
    intro curr h
    by_cases hd : isAlnum d
    · rw [show findallAux curr (d :: ds) = findallAux (d :: curr) ds by simp [findallAux, hd]]
      rw [ih (d :: curr) (by simp), List.takeWhile_cons, List.dropWhile_cons]
      simp [hd]
    · rw [show findallAux curr (d :: ds) = curr.reverse :: findallAux [] ds by
        simp [findallAux, hd, h]]
      rw [List.takeWhile_cons, List.dropWhile_cons]
      have h2 : findallAux [] (d :: ds) = findallAux [] ds := by simp [findallAux, hd]
      simp [hd, h2]

theorem reFindallAlnum_eq_maxRuns : ∀ l, reFindallAlnum l = maxRuns l := by
  intro l
  induction l using maxRuns.induct with
  | case1 => rw [maxRuns]; rfl
  | case2 c cs hc ih =>
    rw [maxRuns]
    simp only [hc, if_pos]
    rw [show reFindallAlnum (c :: cs) = findallAux [c] cs by simp [reFindallAlnum, findallAux, hc]]
    rw [findallAux_run cs [c] (by simp)]
    simp only [List.reverse_singleton, List.singleton_append]
    rw [show findallAux [] (cs.dropWhile isAlnum) = reFindallAlnum (cs.dropWhile isAlnum) from rfl]
    rw [ih]
  | case3 c cs hc ih =>
    rw [maxRuns]
    simp only [hc, if_neg, ite_false]
    rw [show reFindallAlnum (c :: cs) = reFindallAlnum cs by simp [reFindallAlnum, findallAux, hc]]
    exact ih

theorem findallAux_ne_nil :
    ∀ (cs curr : List Char), ∀ t ∈ findallAux curr cs, t ≠ [] := by
  intro cs
  induction cs with
  | nil =>
    intro curr t ht
    by_cases h : curr = []
    · simp [findallAux, h] at ht
    · simp [findallAux, h] at ht
      subst ht
      simpa using h
  | cons d ds ih =>
    intro curr t ht
    by_cases hd : isAlnum d
    · simp only [findallAux, hd, if_pos] at ht
      exact ih (d :: curr) t ht
    · by_cases h : curr = []
      · simp only [findallAux, hd, h, Bool.false_eq_true, if_neg, ite_false, ite_true] at ht
        exact ih [] t ht
      · simp only [findallAux, hd, h, Bool.false_eq_true, if_neg, ite_false] at ht
        rcases List.mem_cons.mp ht with h1 | h2
        · subst h1; simpa using h
        · exact ih [] t h2

theorem reFindallAlnum_ne_nil (l : List Char) : ∀ t ∈ reFindallAlnum l, t ≠ [] :=
  findallAux_ne_nil l []

/-- The `len(word) > 0` guard never filters a token. -/
theorem mapperTokens_eq_noGuard (line : List Char) :
    mapperTokens line = mapperTokensNoGuard line := by
  unfold mapperTokens mapperTokensNoGuard
  by_cases h : (pyStrip line).map pyLower = []
  · simp [h]
  · simp only [h, if_neg, ite_false]
    apply List.filter_eq_self.mpr
    intro t ht
    have := reFindallAlnum_ne_nil _ t ht
    simpa [List.length_pos] using this

theorem filter_eq_takeWhile_append (p : Char → Bool) :
    ∀ l : List Char, l.filter p = l.takeWhile p ++ (l.dropWhile p).filter p := by
  intro l
  induction l with
  | nil => simp
  | cons c cs ih =>
    by_cases h : p c
    · simp [List.filter_cons, List.takeWhile_cons, List.dropWhile_cons, h, ih]
    · simp [List.filter_cons, List.takeWhile_cons, List.dropWhile_cons, h]

theorem maxRuns_flatten : ∀ l, (maxRuns l).flatten = l.filter isAlnum := by
  intro l
  induction l using maxRuns.induct with
  | case1 => simp [maxRuns]
  | case2 c cs hc ih =>
    rw [maxRuns]
    simp only [hc, if_pos, List.flatten_cons, ih, List.filter_cons, List.cons_append]
    rw [filter_eq_takeWhile_append isAlnum cs]
  | case3 c cs hc ih =>
    rw [maxRuns]
    simp [hc, ih, List.filter_cons]

/-! ## Reducer lemmas -/

theorem splitRuns_cons (r : List Char × Int) (rest : List (List Char × Int)) :
    splitRuns (r :: rest) = consRun r (splitRuns rest) := rfl

/-- The first run of `splitRuns (r :: rest)` starts with `r`. -/
theorem splitRuns_first (r : List Char × Int) (rest : List (List Char × Int)) :
    ∃ tl chunks, splitRuns (r :: rest) = (r :: tl) :: chunks := by
  rw [splitRuns_cons]
  rcases h : splitRuns rest with _ | ⟨ch, chunks⟩
  · exact ⟨[], [], rfl⟩
  · rcases ch with _ | ⟨r2, tl⟩
    · exact ⟨[], [] :: chunks, rfl⟩
    · by_cases hk : r.1 = r2.1
      · exact ⟨r2 :: tl, chunks, by simp [consRun, hk]⟩
      · exact ⟨[], (r2 :: tl) :: chunks, by simp [consRun, hk]⟩

/-- Merging two adjacent records with the same key before grouping is the same
as grouping with their counts already summed. -/
theorem aggSpec_merge (k : List Char) (t c : Int) (rest : List (List Char × Int)) :
    aggSpec ((k, t) :: (k, c) :: rest) = aggSpec ((k, t + c) :: rest) := by
  unfold aggSpec
  rw [splitRuns_cons, splitRuns_cons, splitRuns_cons]
  rcases h : splitRuns rest with _ | ⟨ch, chunks⟩
  · simp [consRun, runPair, Int.add_assoc]
  · rcases ch with _ | ⟨r2, tl⟩
    · simp [consRun, runPair, Int.add_assoc]
    · by_cases hk : k = r2.1
      · simp [consRun, hk, runPair, Int.add_assoc]
      · simp [consRun, hk, runPair, Int.add_assoc]

/-- A key change closes the previous run: the first emitted pair is the
previous record alone. -/
theorem aggSpec_break (w k : List Char) (t c : Int) (rest : List (List Char × Int))
    (hk : w ≠ k) :
    aggSpec ((w, t) :: (k, c) :: rest) = (w, t) :: aggSpec ((k, c) :: rest) := by
  unfold aggSpec
  obtain ⟨tl, chunks, h⟩ := splitRuns_first (k, c) rest
  rw [splitRuns_cons, h, consRun]
  simp only [hk, if_neg, ite_false]
  simp [runPair]

theorem reduceFrom_some_eq_aggSpec :
    ∀ (recs : List (List Char × Int)) (w : List Char) (t : Int),
      reduceFrom ⟨some w, t⟩ recs = aggSpec ((w, t) :: recs) := by
  intro recs
  induction recs with
  | nil =>
    intro w t
    simp [reduceFrom, flush, aggSpec, splitRuns, consRun, runPair]
  | cons r rest ih =>
    intro w t
    rcases r with ⟨k, c⟩
    by_cases hk : w = k
    · subst hk
      rw [show reduceFrom ⟨some w, t⟩ ((w, c) :: rest) = reduceFrom ⟨some w, t + c⟩ rest by
        simp [reduceFrom, stepRecord]]
      rw [ih w (t + c), aggSpec_merge]
    · rw [show reduceFrom ⟨some w, t⟩ ((k, c) :: rest) =
          (w, t) :: reduceFrom ⟨some k, c⟩ rest by
        simp [reduceFrom, stepRecord, hk]]
      rw [ih k c, aggSpec_break w k t c rest hk]

/-- The reducer on a stream of well-formed records computes exactly the
spec's run-grouping aggregation. -/
theorem reduceRecords_eq_aggSpec (recs : List (List Char × Int)) :
    reduceRecords recs = aggSpec recs := by
  rcases recs with _ | ⟨⟨k, c⟩, rest⟩
  · rfl
  · rw [show reduceRecords ((k, c) :: rest) = reduceFrom ⟨some k, c⟩ rest by
      simp [reduceRecords, reduceFrom, stepRecord, initState]]
    exact reduceFrom_some_eq_aggSpec rest k c

/-- Processing raw lines is processing the well-formed records among them:
lines that fail to parse are invisible to the fold. -/
theorem reduceLinesFrom_eq_filterMap :
    ∀ (lines : List (List Char)) (s : RState),
      reduceLinesFrom s lines = reduceFrom s (lines.filterMap parseRecord) := by
  intro lines
  induction lines with
  | nil => intro s; rfl
  | cons line rest ih =>
    intro s
    rcases h : parseRecord line with _ | r
    · simp [reduceLinesFrom, h, List.filterMap_cons, ih]
    · simp [reduceLinesFrom, h, List.filterMap_cons, reduceFrom, ih]

theorem stateAfterLines_eq_filterMap :
    ∀ (lines : List (List Char)) (s : RState),
      stateAfterLines s lines = stateAfter s (lines.filterMap parseRecord) := by
  intro lines
  induction lines with
  | nil => intro s; rfl
  | cons line rest ih =>
    intro s
    rcases h : parseRecord line with _ | r
    · simp [stateAfterLines, h, List.filterMap_cons, ih]
    · simp [stateAfterLines, h, List.filterMap_cons, stateAfter, ih]

/-- Total-count conservation for one fold run: the emitted totals sum to the
pending total plus the input counts. -/
theorem sum_reduceFrom :
    ∀ (recs : List (List Char × Int)) (s : RState),
      ((reduceFrom s recs).map Prod.snd).sum = stateSum s + ((recs.map Prod.snd).sum) := by
  intro recs
  induction recs with
  | nil =>
    intro s
    rcases h : s.key with _ | w
    · simp [reduceFrom, flush, h, stateSum]
    · simp [reduceFrom, flush, h, stateSum]
  | cons r rest ih =>
    intro s
    rcases r with ⟨k, c⟩
    by_cases hk : s.key = some k
    · rw [show reduceFrom s ((k, c) :: rest) = reduceFrom ⟨s.key, s.total + c⟩ rest by
        simp [reduceFrom, stepRecord, hk]]
      rw [ih]
      simp [stateSum, hk, Int.add_assoc]
    · rcases h : s.key with _ | w
      · rw [show reduceFrom s ((k, c) :: rest) = reduceFrom ⟨some k, c⟩ rest by
          simp [reduceFrom, stepRecord, hk, h]]
        rw [ih]
        simp [stateSum, h]
      · have hw : ¬ w = k := fun e => hk (by rw [h, e])
        rw [show reduceFrom s ((k, c) :: rest) =
            (w, s.total) :: reduceFrom ⟨some k, c⟩ rest by
          simp [reduceFrom, stepRecord, hk, h, hw]]
        simp only [List.map_cons, List.sum_cons, ih]
        simp [stateSum, h, Int.add_assoc]

/-- The reducer's output is the loop's emissions followed by the final flush
of the end state. -/
theorem reduceFrom_eq_loopEmit_flush :
    ∀ (recs : List (List Char × Int)) (s : RState),
      reduceFrom s recs = loopEmit s recs ++ flush (stateAfter s recs) := by
  intro recs
  induction recs with
  | nil => intro s; simp [reduceFrom, loopEmit, stateAfter]
  | cons r rest ih =>
    intro s
    simp [reduceFrom, loopEmit, stateAfter, ih]

/-! ## Character classification lemmas -/

theorem isPySpace_false_of_toNat_large (c : Char) (h : 33 ≤ c.toNat) :
    isPySpace c = false := by
  have h1 : ¬ c = ' ' := fun e => absurd (e ▸ h) (by decide)
  have h2 : ¬ c = '\t' := fun e => absurd (e ▸ h) (by decide)
  have h3 : ¬ c = '\n' := fun e => absurd (e ▸ h) (by decide)
  have h4 : ¬ c = '\r' := fun e => absurd (e ▸ h) (by decide)
  have h5 : ¬ c = '\x0b' := fun e => absurd (e ▸ h) (by decide)
  have h6 : ¬ c = '\x0c' := fun e => absurd (e ▸ h) (by decide)
  simp [isPySpace, h1, h2, h3, h4, h5, h6]

theorem isAlnum_toNat (c : Char) (h : isAlnum c = true) :
    (48 ≤ c.toNat ∧ c.toNat ≤ 57) ∨ (65 ≤ c.toNat ∧ c.toNat ≤ 90) ∨
      (97 ≤ c.toNat ∧ c.toNat ≤ 122) := by
  unfold isAlnum at h
  simp only [Bool.or_eq_true, Bool.and_eq_true, decide_eq_true_eq] at h
  rcases h with (⟨h1, h2⟩ | ⟨h1, h2⟩) | ⟨h1, h2⟩
  · right; right
    exact ⟨(char_le_iff_toNat _ _).mp h1, (char_le_iff_toNat _ _).mp h2⟩
  · right; left
    exact ⟨(char_le_iff_toNat _ _).mp h1, (char_le_iff_toNat _ _).mp h2⟩
  · left
    exact ⟨(char_le_iff_toNat _ _).mp h1, (char_le_iff_toNat _ _).mp h2⟩

theorem isPySpace_false_of_isAlnum (c : Char) (h : isAlnum c = true) :
    isPySpace c = false := by
  have := isAlnum_toNat c h
  exact isPySpace_false_of_toNat_large c (by omega)

theorem isAlnum_ne_tab (c : Char) (h : isAlnum c = true) : ¬ c = '\t' :=
  fun e => absurd (e ▸ h) (by decide)

theorem upper_toNat_bounds (c : Char) (h : 'A' ≤ c ∧ c ≤ 'Z') :
    65 ≤ c.toNat ∧ c.toNat ≤ 90 :=
  ⟨(char_le_iff_toNat _ _).mp h.1, (char_le_iff_toNat _ _).mp h.2⟩

theorem pyLower_eq_self_of_not (c : Char) (h : ¬ ('A' ≤ c ∧ c ≤ 'Z')) : pyLower c = c := by
  unfold pyLower; rw [if_neg h]

theorem pyLower_toNat_of_upper (c : Char) (h : 'A' ≤ c ∧ c ≤ 'Z') :
    (pyLower c).toNat = c.toNat + 32 := by
  unfold pyLower
  rw [if_pos h]
  exact char_toNat_ofNat_valid _ (by have := upper_toNat_bounds c h; omega)

theorem pyLower_pyLower (c : Char) : pyLower (pyLower c) = pyLower c := by
  by_cases h : 'A' ≤ c ∧ c ≤ 'Z'
  · have hb := upper_toNat_bounds c h
    have ht := pyLower_toNat_of_upper c h
    refine pyLower_eq_self_of_not _ (fun h2 => ?_)
    have hb2 := upper_toNat_bounds _ h2
    omega
  · rw [pyLower_eq_self_of_not c h, pyLower_eq_self_of_not c h]

theorem isPySpace_pyLower (c : Char) : isPySpace (pyLower c) = isPySpace c := by
  by_cases h : 'A' ≤ c ∧ c ≤ 'Z'
  · have hb := upper_toNat_bounds c h
    have ht := pyLower_toNat_of_upper c h
    rw [isPySpace_false_of_toNat_large _ (by omega), isPySpace_false_of_toNat_large c (by omega)]
  · rw [pyLower_eq_self_of_not c h]

theorem pyStrip_map_pyLower (l : List Char) :
    pyStrip (l.map pyLower) = (pyStrip l).map pyLower := by
  have hp : (isPySpace ∘ pyLower) = isPySpace := funext isPySpace_pyLower
  unfold pyStrip
  rw [List.dropWhile_map, hp, ← List.map_reverse, List.dropWhile_map, hp, ← List.map_reverse]

/-- The mapper is insensitive to the case of its input line. -/
theorem mapperTokens_map_pyLower (line : List Char) :
    mapperTokens (line.map pyLower) = mapperTokens line := by
  have hc : pyLower ∘ pyLower = pyLower := funext pyLower_pyLower
  unfold mapperTokens
  rw [pyStrip_map_pyLower, List.map_map, hc]

/-! ## Round-trip of the wire format for mapper emissions -/

theorem pyStrip_eq_self (l : List Char)
    (h1 : ∀ c, l.head? = some c → isPySpace c = false)
    (h2 : ∀ c, l.getLast? = some c → isPySpace c = false) : pyStrip l = l := by
  unfold pyStrip
  have hd : l.dropWhile isPySpace = l := by
    rcases l with _ | ⟨c, cs⟩
    · rfl
    · rw [List.dropWhile_cons, h1 c rfl]
      simp
  rw [hd]
  have hr : l.reverse.dropWhile isPySpace = l.reverse := by
    rcases hrev : l.reverse with _ | ⟨c, cs⟩
    · rfl
    · have : l.getLast? = some c := by rw [← List.head?_reverse, hrev]; rfl
      rw [List.dropWhile_cons, h2 c this]
      simp
  rw [hr, List.reverse_reverse]

theorem maxRuns_all_alnum : ∀ l, ∀ t ∈ maxRuns l, ∀ c ∈ t, isAlnum c = true := by
  intro l
  induction l using maxRuns.induct with
  | case1 => intro t ht; rw [maxRuns] at ht; simp at ht
  | case2 c cs hc ih =>
    intro t ht
    rw [maxRuns] at ht
    simp only [hc, if_pos, List.mem_cons] at ht
    rcases ht with h1 | h2
    · subst h1
      intro d hd
      rcases List.mem_cons.mp hd with h3 | h4
      · subst h3; exact hc
      · exact List.mem_takeWhile_imp h4
    · exact ih t h2
  | case3 c cs hc ih =>
    intro t ht
    rw [maxRuns] at ht
    simp only [hc, Bool.false_eq_true, if_neg, ite_false] at ht
    exact ih t ht

theorem splitTab_append (w rest : List Char) (h : ∀ c ∈ w, ¬ c = '\t') :
    splitTab (w ++ '\t' :: rest) = w :: splitTab rest := by
  induction w with
  | nil => simp [splitTab]
  | cons c cs ih =>
    have hc : ¬ c = '\t' := h c (by simp)
    have ih2 := ih (fun d hd => h d (by simp [hd]))
    rw [List.cons_append, splitTab, if_neg hc, ih2]

/-- A mapper output line `word\t1` parses back to the pair `(word, 1)`. -/
theorem parseRecord_token_line (w : List Char) (hw : w ≠ [])
    (ha : ∀ c ∈ w, isAlnum c = true) :
    parseRecord (w ++ ['\t', '1']) = some (w, 1) := by
  have hstrip : pyStrip (w ++ ['\t', '1']) = w ++ ['\t', '1'] := by
    apply pyStrip_eq_self
    · intro c hc
      rcases w with _ | ⟨d, ds⟩
      · simp at hw
      · have hcd : c = d := by
          simp only [List.cons_append, List.head?_cons, Option.some.injEq] at hc
          exact hc.symm
        subst hcd
        exact isPySpace_false_of_isAlnum c (ha c (by simp))
    · intro c hc
      rw [show w ++ ['\t', '1'] = (w ++ ['\t']) ++ ['1'] by simp] at hc
      rw [List.getLast?_concat] at hc
      have : c = '1' := by simpa using hc.symm
      subst this
      decide
  unfold parseRecord
  simp only [hstrip]
  rw [if_neg (by simp)]
  rw [show w ++ ['\t', '1'] = w ++ '\t' :: ['1'] from rfl]
  rw [splitTab_append w ['1'] (fun c hc => isAlnum_ne_tab c (ha c hc))]
  rfl

theorem stateAfter_append (s : RState) (l1 l2 : List (List Char × Int)) :
    stateAfter s (l1 ++ l2) = stateAfter (stateAfter s l1) l2 := by
  induction l1 generalizing s with
  | nil => rfl
  | cons r rest ih => simp [stateAfter, ih]

/-! ## The external Sort Barrier (spec-modelled) -/

/-- Modelled from the spec: byte-wise lexicographic order on lines, the order
the external sort stage uses. The Sort Barrier itself is an external
collaborator ("assumed correct and given"), not implemented in this
repository. -/
def lexLe : List Char → List Char → Bool
  | [], _ => true
  | _ :: _, [] => false
  | a :: as, b :: bs => if a = b then lexLe as bs else decide (a < b)

/-- Insert a line into a sorted list of lines. -/
def insertLine (x : List Char) : List (List Char) → List (List Char)
  | [] => [x]
  | y :: ys => if lexLe x y then x :: y :: ys else y :: insertLine x ys

/-- Modelled from the spec: the external Sort Barrier — a total-order sort of
the emitted records by key, grouping identical keys contiguously. -/
def sortLines : List (List Char) → List (List Char)
  | [] => []
  | x :: xs => insertLine x (sortLines xs)

theorem insertLine_perm (x : List Char) : ∀ l, (insertLine x l).Perm (x :: l) := by
  intro l
  induction l with
  | nil => simp [insertLine]
  | cons y ys ih =>
    by_cases h : lexLe x y
    · simp [insertLine, h]
    · rw [insertLine, if_neg h]
      exact (ih.cons y).trans (List.Perm.swap x y ys)

theorem sortLines_perm : ∀ l, (sortLines l).Perm l := by
  intro l
  induction l with
  | nil => exact List.Perm.refl []
  | cons x xs ih => exact (insertLine_perm x (sortLines xs)).trans (ih.cons x)

/-! ## C2 support: every mapper output line parses back to a count of 1 -/

theorem mapperTokens_mem (line : List Char) :
    ∀ w ∈ mapperTokens line, w ≠ [] ∧ ∀ c ∈ w, isAlnum c = true := by
  intro w hw
  unfold mapperTokens at hw
  by_cases h : (pyStrip line).map pyLower = []
  · simp [h] at hw
  · simp only [h, if_neg, ite_false] at hw
    have hw2 := List.mem_of_mem_filter hw
    refine ⟨reFindallAlnum_ne_nil _ w hw2, ?_⟩
    rw [reFindallAlnum_eq_maxRuns] at hw2
    exact maxRuns_all_alnum _ w hw2

theorem mapperOut_mem (lines : List (List Char)) :
    ∀ r ∈ mapperOut lines, ∃ w, parseRecord r = some (w, 1) := by
  intro r hr
  unfold mapperOut at hr
  rw [List.mem_flatten] at hr
  obtain ⟨inner, hinner, hr2⟩ := hr
  rw [List.mem_map] at hinner
  obtain ⟨line, _, hinner2⟩ := hinner
  subst hinner2
  rw [List.mem_map] at hr2
  obtain ⟨w, hw, hr3⟩ := hr2
  subst hr3
  obtain ⟨hne, halnum⟩ := mapperTokens_mem line w hw
  exact ⟨w, parseRecord_token_line w hne halnum⟩

theorem filterMap_parse_ones :
    ∀ ls : List (List Char), (∀ l ∈ ls, ∃ w, parseRecord l = some (w, 1)) →
      ((ls.filterMap parseRecord).map Prod.snd).sum = (ls.length : Int) := by
  intro ls
  induction ls with
  | nil => intro _; simp
  | cons l rest ih =>
    intro h
    obtain ⟨w, hw⟩ := h l (by simp)
    rw [List.filterMap_cons, hw]
    simp only [List.map_cons, List.sum_cons, List.length_cons]
    rw [ih (fun l' hl' => h l' (by simp [hl']))]
    push_cast
    ring

/-- The loop invariant: whenever `current_word` is set, `current_count` is the
sum of the counts of the current contiguous run — the maximal suffix of the
consumed records whose keys all equal `current_word` (and that suffix indeed
starts the reversed stream with the current key). -/
theorem stateAfter_invariant :
    ∀ recs : List (List Char × Int),
      ((stateAfter initState recs).key = none → recs = []) ∧
      (∀ w, (stateAfter initState recs).key = some w →
        (∃ c rest, recs.reverse = (w, c) :: rest) ∧
        (stateAfter initState recs).total =
          ((recs.reverse.takeWhile (fun r => r.1 = w)).map Prod.snd).sum) := by
  intro recs
  induction recs using List.reverseRecOn with
  | nil =>
    constructor
    · intro _; rfl
    · intro w hw; simp [stateAfter, initState] at hw
  | append_singleton l r ih =>
    rcases r with ⟨k, c⟩
    rw [stateAfter_append]
    rcases hkey : (stateAfter initState l).key with _ | w
    · have hl : l = [] := ih.1 hkey
      subst hl
      have hstep : stateAfter (stateAfter initState []) [(k, c)] = ⟨some k, c⟩ := by
        simp [stateAfter, stepRecord, initState]
      rw [hstep]
      constructor
      · intro hnone; simp at hnone
      · intro w hw
        have hwk : w = k := by simpa using hw.symm
        subst hwk
        refine ⟨⟨c, [], by simp⟩, ?_⟩
        simp [List.takeWhile_cons]
    · rcases ih.2 w hkey with ⟨⟨c0, rest0, hrev⟩, htot⟩
      by_cases hk : w = k
      · subst hk
        rw [show stateAfter (stateAfter initState l) [(w, c)] =
            ⟨(stateAfter initState l).key, (stateAfter initState l).total + c⟩ by
          simp [stateAfter, stepRecord, hkey]]
        constructor
        · intro hnone; rw [hkey] at hnone; simp at hnone
        · intro w' hw'
          rw [hkey] at hw'
          have : w' = w := by simpa using hw'.symm
          subst this
          constructor
          · exact ⟨c, l.reverse, by simp⟩
          · simp only [List.reverse_append, List.reverse_singleton, List.singleton_append]
            rw [List.takeWhile_cons, if_pos (by simp)]
            simp only [List.map_cons, List.sum_cons, RState.total, htot]
            omega
      · rw [show stateAfter (stateAfter initState l) [(k, c)] = ⟨some k, c⟩ by
          simp [stateAfter, stepRecord, hkey, hk]]
        constructor
        · intro hnone; simp at hnone
        · intro w' hw'
          have : w' = k := by simpa using hw'.symm
          subst this
          constructor
          · exact ⟨c, l.reverse, by simp⟩
          · simp only [List.reverse_append, List.reverse_singleton, List.singleton_append,
              List.takeWhile_cons]
            rw [hrev]
            simp [List.takeWhile_cons, hk, Ne.symm hk]

theorem runPair_snd : ∀ ch : List (List Char × Int), (runPair ch).2 = (ch.map Prod.snd).sum := by
  intro ch
  rcases ch with _ | ⟨⟨k, c⟩, tl⟩
  · rfl
  · simp [runPair]

/-! ## The claims -/

/-- C1: on any stream of well-formed records, the Aggregator emits exactly one
output pair per maximal contiguous run of a key — the run's key with the sum
of the run's counts — in the order the runs appeared; in particular a key
occurring in two non-adjacent runs yields two separate partial totals, with no
merging and no error. -/
theorem claim1_one_pair_per_maximal_run :
    (∀ recs : List (List Char × Int), reduceRecords recs = aggSpec recs) ∧
    reduceRecords [("a".data, 1), ("b".data, 1), ("a".data, 1)] =
      [("a".data, 1), ("b".data, 1), ("a".data, 1)] :=
  ⟨reduceRecords_eq_aggSpec, by decide⟩

/-- C2: for any input text, the Aggregator's output counts over the sorted
stream of the Tokenizer's emitted records sum to the total number of records
the Tokenizer emits (conservation of total count across the pipeline). -/
theorem claim2_total_count_conservation :
    ∀ lines : List (List Char),
      ((reducerLines (sortLines (mapperOut lines))).map Prod.snd).sum =
        ((mapperOut lines).length : Int) := by
  intro lines
  rw [reducerLines, reduceLinesFrom_eq_filterMap, sum_reduceFrom]
  have hperm := sortLines_perm (mapperOut lines)
  have hmem : ∀ l ∈ sortLines (mapperOut lines), ∃ w, parseRecord l = some (w, 1) :=
    fun l hl => mapperOut_mem lines l (hperm.mem_iff.mp hl)
  rw [filterMap_parse_ones _ hmem, hperm.length_eq]
  simp [stateSum, initState]

/-- C3: per line, the Tokenizer strips and lowercases the line, extracts the
maximal runs of ASCII letters or digits, discards all other characters, and
emits one `(token, 1)` pair per run in left-to-right order (a line with no
tokens emits nothing); and it is insensitive to the case of the line, e.g.
`"The THE the"` yields three emissions of `("the", 1)`. -/
theorem claim3_tokenizer_functional_spec :
    (∀ line : List Char,
        mapperPairs line =
          (maxRuns ((pyStrip line).map pyLower)).map (fun w => (w, (1 : Int)))) ∧
    (∀ line : List Char, mapperPairs (line.map pyLower) = mapperPairs line) ∧
    mapperPairs "The THE the".data =
      [("the".data, 1), ("the".data, 1), ("the".data, 1)] := by
  refine ⟨?_, ?_, ?_⟩
  · intro line
    unfold mapperPairs
    rw [mapperTokens_eq_noGuard]
    unfold mapperTokensNoGuard
    by_cases h : (pyStrip line).map pyLower = []
    · rw [h]
      simp [maxRuns]
    · simp only [h, if_neg, ite_false]
      rw [reFindallAlnum_eq_maxRuns]
  · intro line
    unfold mapperPairs
    rw [mapperTokens_map_pyLower]
  · decide

/-- C4: at end-of-stream, a pending group (`current_word` set) is emitted
exactly once after the loop's own emissions; if no well-formed record ever
arrived, the Aggregator is still idle at end-of-stream and emits nothing. -/
theorem claim4_final_flush_exactly_once :
    (∀ (recs : List (List Char × Int)) (w : List Char),
        (stateAfter initState recs).key = some w →
          reduceRecords recs =
            loopEmit initState recs ++ [(w, (stateAfter initState recs).total)]) ∧
    (∀ lines : List (List Char), lines.filterMap parseRecord = [] →
        (stateAfterLines initState lines).key = none ∧ reducerLines lines = []) := by
  constructor
  · intro recs w hw
    rw [reduceRecords, reduceFrom_eq_loopEmit_flush]
    simp [flush, hw]
  · intro lines h
    rw [stateAfterLines_eq_filterMap, h]
    exact ⟨rfl, by rw [reducerLines, reduceLinesFrom_eq_filterMap, h]; rfl⟩

/-- Witness for C4 at concrete inputs: a stream ending mid-group flushes the
group once; a stream with no well-formed record emits nothing. -/
theorem claim4_final_flush_exactly_once_witness :
    (reduceRecords [("a".data, 1), ("a".data, 2)] =
        loopEmit initState [("a".data, 1), ("a".data, 2)] ++
          [("a".data, (stateAfter initState [("a".data, 1), ("a".data, 2)]).total)]) ∧
    ((stateAfterLines initState ["oops".data]).key = none ∧
      reducerLines ["oops".data] = []) :=
  ⟨claim4_final_flush_exactly_once.1 _ "a".data (by decide),
   claim4_final_flush_exactly_once.2 ["oops".data] (by decide)⟩

/-- C5: a malformed record (no tab, too many fields, or a non-integer count)
is skipped silently: deleting it from the stream changes neither the output
nor the aggregation state, and the concrete malformed lines `"oops"` and
`"word\tNaN"` indeed fail to parse. -/
theorem claim5_malformed_lines_skipped :
    (∀ (xs ys : List (List Char)) (bad : List Char), parseRecord bad = none →
        reducerLines (xs ++ bad :: ys) = reducerLines (xs ++ ys) ∧
        stateAfterLines initState (xs ++ bad :: ys) =
          stateAfterLines initState (xs ++ ys)) ∧
    parseRecord "oops".data = none ∧ parseRecord "word\tNaN".data = none := by
  refine ⟨?_, by decide, by decide⟩
  intro xs ys bad h
  have hfm : (xs ++ bad :: ys).filterMap parseRecord =
      (xs ++ ys).filterMap parseRecord := by
    rw [List.filterMap_append, List.filterMap_append, List.filterMap_cons, h]
  constructor
  · rw [reducerLines, reducerLines, reduceLinesFrom_eq_filterMap,
      reduceLinesFrom_eq_filterMap, hfm]
  · rw [stateAfterLines_eq_filterMap, stateAfterLines_eq_filterMap, hfm]

/-- Witness for C5: inserting `"oops"` between two valid records changes
nothing. -/
theorem claim5_malformed_lines_skipped_witness :
    reducerLines ["a\t1".data, "oops".data, "a\t2".data] =
        reducerLines ["a\t1".data, "a\t2".data] ∧
      stateAfterLines initState ["a\t1".data, "oops".data, "a\t2".data] =
        stateAfterLines initState ["a\t1".data, "a\t2".data] :=
  claim5_malformed_lines_skipped.1 ["a\t1".data] ["a\t2".data] "oops".data (by decide)

/-- C6: whenever the Aggregator is accumulating (current key set), its running
total equals the sum of the counts of the well-formed records of the current
contiguous run — the maximal suffix of consumed well-formed records whose key
is the current key — for every input stream, i.e. at every point of the fold,
malformed skips included. -/
theorem claim6_running_total_invariant :
    ∀ (lines : List (List Char)) (w : List Char),
      (stateAfterLines initState lines).key = some w →
      (stateAfterLines initState lines).total =
        ((((lines.filterMap parseRecord).reverse.takeWhile
            (fun r => r.1 = w)).map Prod.snd).sum) := by
  intro lines w hw
  rw [stateAfterLines_eq_filterMap] at hw ⊢
  exact ((stateAfter_invariant (lines.filterMap parseRecord)).2 w hw).2

/-- Witness for C6 on a concrete stream. -/
theorem claim6_running_total_invariant_witness :
    (stateAfterLines initState ["a\t1".data, "oops".data, "a\t2".data]).total =
      (((["a\t1".data, "oops".data, "a\t2".data].filterMap parseRecord).reverse.takeWhile
          (fun r => r.1 = "a".data)).map Prod.snd).sum :=
  claim6_running_total_invariant _ "a".data (by decide)

/-- C7: the `len(word) > 0` guard never filters a token — the mapper with the
guard equals the mapper with the guard removed — because the extracted runs
are never empty. -/
theorem claim7_guard_never_filters :
    (∀ line : List Char, mapperTokens line = mapperTokensNoGuard line) ∧
    (∀ l : List Char, ∀ t ∈ reFindallAlnum l, t ≠ []) :=
  ⟨mapperTokens_eq_noGuard, reFindallAlnum_ne_nil⟩

/-- Witness for C7 at a concrete line and token. -/
theorem claim7_guard_never_filters_witness :
    mapperTokens "a b".data = mapperTokensNoGuard "a b".data ∧
      (['a'] : List Char) ≠ [] :=
  ⟨claim7_guard_never_filters.1 _,
   claim7_guard_never_filters.2 "a b".data ['a'] (by decide)⟩

/-- C8: the Tokenizer is total on every line — there is no error path: each
character of the (stripped, lowercased) line either appears in an emitted
token or is dropped as a separator; the emitted tokens concatenate to exactly
the alphanumeric characters of the processed line. -/
theorem claim8_tokenizer_never_fails :
    ∀ line : List Char,
      (mapperTokens line).flatten = ((pyStrip line).map pyLower).filter isAlnum := by
  intro line
  rw [mapperTokens_eq_noGuard]
  unfold mapperTokensNoGuard
  by_cases h : (pyStrip line).map pyLower = []
  · rw [h]
    simp
  · simp only [h, if_neg, ite_false]
    rw [reFindallAlnum_eq_maxRuns, maxRuns_flatten]

/-- C9: emitted totals are exact integer sums of the corresponding run's
counts — no modular reduction at any width; in particular a total can reach
`2^64`, beyond any 64-bit wrap. -/
theorem claim9_totals_exact_no_wrap :
    (∀ recs : List (List Char × Int),
        (reduceRecords recs).map Prod.snd =
          (splitRuns recs).map (fun ch => (ch.map Prod.snd).sum)) ∧
    reduceRecords [("a".data, 2 ^ 63), ("a".data, 2 ^ 63)] = [("a".data, 2 ^ 64)] := by
  constructor
  · intro recs
    rw [reduceRecords_eq_aggSpec, aggSpec, List.map_map]
    apply List.map_congr_left
    intro ch _
    exact runPair_snd ch
  · decide

/-- C10: the Aggregator accepts strictly more than the exact `word\tcount`
wire format: lines are stripped first and the count is parsed by general
integer parsing, so trailing spaces, a leading tab, spaces around the count,
and explicit signs are accepted — and a negative count decreases the running
total. -/
theorem claim10_lenient_record_parsing :
    parseRecord "word\t3".data = some ("word".data, 3) ∧
    parseRecord "word\t3  ".data = some ("word".data, 3) ∧
    parseRecord "\tword\t3".data = some ("word".data, 3) ∧
    parseRecord "word\t 3".data = some ("word".data, 3) ∧
    parseRecord "word\t+3".data = some ("word".data, 3) ∧
    parseRecord "word\t-3".data = some ("word".data, -3) ∧
    reduceRecords [("word".data, 5), ("word".data, -3)] = [("word".data, 2)] :=
  ⟨by decide, by decide, by decide, by decide, by decide, by decide, by decide⟩

end WordCount
